import Mathlib

/-!
Verification of the mdgo conductivity module (`mdgo/conductivity.py`).

The Python module is embedded shallowly:

* Machine floats are modelled as exact numbers: rational arithmetic (`ℚ`)
  for the parts of the code that use only field operations
  (`conductivity_calculator`, the charge accumulation of `calc_cond_msd`),
  and real arithmetic (`ℝ`) for the parts that use transcendental
  functions (`np.log`, `np.logspace` inside `get_beta` and
  `choose_msd_fitting_region`).
* Numpy arrays are modelled as total functions `ℕ → ℚ` / `ℕ → ℝ` together
  with an explicit length parameter where the code uses `len(...)`.
* `np.gradient(f, x)` (one-dimensional, non-uniform sample points,
  default `edge_order=1`) is embedded by `gradAt` / `npGradient` below:
  first-order one-sided differences at the two boundary points and the
  second-order three-point formula at interior points.
* The external FFT-based MSD collaborator `mdgo.msd.msd_fft` (imported by
  the module but outside this file's source) is passed as an explicit
  function argument to `calc_cond_msd`, following the spec's description
  of it as an injected collaborator.
* `print` diagnostics are modelled by data: `conductivity_calculator`
  returns the reported value together with its unit label inside
  `Except` (the `raise ValueError` branch becomes `Except.error`), and
  `choose_msd_fitting_region` returns a propositional `warned` flag
  recording whether the low-linearity warning was printed.
-/

/-- A 3-component rational vector, modelling a numpy 3-vector of floats. -/
abbrev Vec3 := Fin 3 → ℚ

/-- Embedding of `calc_cond_msd` from `mdgo/conductivity.py`.

The trajectory is modelled by its number of frames `n_frames`; a molecule
is modelled by its center-of-mass trajectory `ℕ → Vec3` (the value of
`center_of_mass()` at each frame index).  `anions` and `cations` are the
per-residue molecule lists produced by `split("residue")`.  The loop
`for _ts in u.trajectory[run_start:]` appending
`Σ anion com·anion_charge + Σ cation com·cation_charge` becomes a `map`
over the dropped frame-index range, and the final call to the external
collaborator `msd_fft` is applied to the accumulated list. -/
def calc_cond_msd (msd_fft : List Vec3 → List ℚ) (n_frames : ℕ)
    (anions cations : List (ℕ → Vec3)) (run_start : ℕ)
    (cation_charge anion_charge : ℚ) : List ℚ :=
  msd_fft (((List.range n_frames).drop run_start).map fun ts =>
    (anions.map fun anion => anion_charge • anion ts).sum
      + (cations.map fun cation => cation_charge • cation ts).sum)

/-- Least-squares slope of `y[start:end]` against `x[start:end]`, as
computed by `scipy.stats.linregress`: covariance over variance,
`Σ (x i - x̄)(y i - ȳ) / Σ (x i - x̄)²`. -/
def linregress_slope (x y : ℕ → ℚ) (start end_ : ℕ) : ℚ :=
  let n := end_ - start
  let xbar := ((List.range n).map fun k => x (start + k)).sum / (n : ℚ)
  let ybar := ((List.range n).map fun k => y (start + k)).sum / (n : ℚ)
  (((List.range n).map fun k => (x (start + k) - xbar) * (y (start + k) - ybar)).sum)
    / (((List.range n).map fun k => (x (start + k) - xbar) ^ 2).sum)

/-- Embedding of `conductivity_calculator` from `mdgo/conductivity.py`.

The returned float together with the printed unit label is modelled as an
`Except` value: `Except.ok (cond, cond_units)` in the two supported unit
systems, and `Except.error "units selection not supported"` for the
`raise ValueError` branch.  The numeric constants and the division chain
`slope / 6 / kb / T / v * convert` are taken verbatim from the source. -/
def conductivity_calculator (time_array cond_array : ℕ → ℚ) (v : ℚ)
    (name : String) (start end_ : ℕ) (T : ℚ) (units : String) :
    Except String (ℚ × String) :=
  if units = "real" then
    let A2cm : ℚ := 1e-8
    let ps2s : ℚ := 1e-12
    let e2c : ℚ := 1.60217662e-19
    let kb : ℚ := 1.38064852e-23
    let convert := e2c * e2c / ps2s / A2cm * 1000
    let slope := linregress_slope time_array cond_array start end_
    Except.ok (slope / 6 / kb / T / v * convert, "mS/cm")
  else if units = "lj" then
    let kb : ℚ := 1
    let convert : ℚ := 1
    let slope := linregress_slope time_array cond_array start end_
    Except.ok (slope / 6 / kb / T / v * convert, "q^2/(tau sigma epsilon)")
  else
    Except.error "units selection not supported"

/-- Maximum of a list of reals, `np.max` on a nonempty array
(defaulting to `0` on the empty list, which the code never produces). -/
def listMax : List ℝ → ℝ
  | [] => 0
  | a :: l => l.foldl max a

/-- Minimum of a list of reals, `np.min` on a nonempty array
(defaulting to `0` on the empty list, which the code never produces). -/
def listMin : List ℝ → ℝ
  | [] => 0
  | a :: l => l.foldl min a

/-- One entry of `np.gradient (f ∘ (·))` sampled at coordinates `x`, on an
array of length `n`: first-order one-sided differences at the two
boundary points (numpy default `edge_order=1`) and the second-order
three-point formula for non-uniform spacing at interior points. -/
noncomputable def gradAt (f x : ℕ → ℝ) (n i : ℕ) : ℝ :=
  if i = 0 then (f 1 - f 0) / (x 1 - x 0)
  else if i = n - 1 then (f (n - 1) - f (n - 2)) / (x (n - 1) - x (n - 2))
  else
    ((x i - x (i - 1)) ^ 2 * f (i + 1)
        + ((x (i + 1) - x i) ^ 2 - (x i - x (i - 1)) ^ 2) * f i
        - (x (i + 1) - x i) ^ 2 * f (i - 1))
      / ((x i - x (i - 1)) * (x (i + 1) - x i)
          * ((x (i + 1) - x i) + (x i - x (i - 1))))

/-- Embedding of `np.gradient(f, x)` over the first `n` sample points. -/
noncomputable def npGradient (f x : ℕ → ℝ) (n : ℕ) : List ℝ :=
  (List.range n).map (gradAt f x n)

/-- Embedding of `get_beta` from `mdgo/conductivity.py`:
`msd_slope = np.gradient(np.log(msd[start:end]), np.log(time_array[start:end]))`,
`beta = np.mean(msd_slope)`, `beta_range = np.max(msd_slope) - np.min(msd_slope)`. -/
noncomputable def get_beta (msd time_array : ℕ → ℝ) (start end_ : ℕ) : ℝ × ℝ :=
  let n := end_ - start
  let slopes := npGradient (fun k => Real.log (msd (start + k)))
    (fun k => Real.log (time_array (start + k))) n
  (slopes.sum / (n : ℝ), listMax slopes - listMin slopes)

/-- The `k`-th of `num` log-spaced points, `np.logspace(a, b, num)[k]`:
`10 ** (a + k * (b - a) / (num - 1))`. -/
noncomputable def logspace_pt (a b : ℝ) (num k : ℕ) : ℝ :=
  (10 : ℝ) ^ (a + (k : ℝ) * ((b - a) / ((num : ℝ) - 1)))

/-- The 10 candidate fitting windows tried by `choose_msd_fitting_region`
on arrays of length `N`: for each `i` in
`np.logspace(np.log10(2), np.log10(N / 10), 10)`, the window
`(int(i), int(i * 10))` (Python `int` truncation; the points are
positive, so truncation is the floor). -/
noncomputable def candidates (N : ℕ) : List (ℕ × ℕ) :=
  (List.range 10).map fun k =>
    let i := logspace_pt (Real.logb 10 2) (Real.logb 10 ((N : ℝ) / 10)) 10 k
    (⌊i⌋₊, ⌊i * 10⌋₊)

/-- Loop state of `choose_msd_fitting_region`: the running `beta_best`
(initialised to the sentinel `0`) and the `(start_final, end_final)`
pair, `none` while those two Python locals are still unassigned. -/
structure SelState where
  beta_best : ℝ
  result : Option (ℕ × ℕ)

open scoped Classical in
/-- One iteration of the `choose_msd_fitting_region` loop: accept the
candidate window `c` when
`(np.abs(beta - 1) < np.abs(beta_best - 1) and beta_range < slope_tolerance)
or beta_best == 0`, with `slope_tolerance = 2`;  `g` is the exponent
estimator `get_beta msd time_array` applied to the window bounds. -/
noncomputable def selectStep (g : ℕ → ℕ → ℝ × ℝ) (st : SelState) (c : ℕ × ℕ) :
    SelState :=
  if (|(g c.1 c.2).1 - 1| < |st.beta_best - 1| ∧ (g c.1 c.2).2 < 2)
      ∨ st.beta_best = 0 then
    ⟨(g c.1 c.2).1, some c⟩
  else st

/-- The full candidate loop of `choose_msd_fitting_region`, folded from
the initial state `beta_best = 0`, window unassigned. -/
noncomputable def selectLoop (g : ℕ → ℕ → ℝ × ℝ) (cs : List (ℕ × ℕ)) : SelState :=
  cs.foldl (selectStep g) ⟨0, none⟩

/-- Result of `choose_msd_fitting_region`: the returned triple
`(start_final, end_final, beta_best)` (`none` models the
`UnboundLocalError` that would occur if no candidate were ever
accepted), and whether the low-linearity warning was printed. -/
structure SelectResult where
  region : Option (ℕ × ℕ × ℝ)
  warned : Prop

/-- Embedding of `choose_msd_fitting_region` from `mdgo/conductivity.py`.
`N` is `len(time_array)`. -/
noncomputable def choose_msd_fitting_region (msd time_array : ℕ → ℝ) (N : ℕ) :
    SelectResult :=
  let st := selectLoop (fun s e => get_beta msd time_array s e) (candidates N)
  ⟨st.result.map fun c => (c.1, c.2, st.beta_best), st.beta_best < 0.9⟩

/-- The same selection loop with the `beta_best < 0.9` warning threshold
removed: only the returned triple.  Used to state that the warning is
purely diagnostic. -/
noncomputable def choose_region_nowarn (msd time_array : ℕ → ℝ) (N : ℕ) :
    Option (ℕ × ℕ × ℝ) :=
  let st := selectLoop (fun s e => get_beta msd time_array s e) (candidates N)
  st.result.map fun c => (c.1, c.2, st.beta_best)

/-- Loop state for the selection rule as the specification words it:
an explicit has-a-candidate-been-accepted flag alongside the running
best exponent and window. -/
structure SpecSelState where
  accepted : Bool
  beta_best : ℝ
  result : Option (ℕ × ℕ)

open scoped Classical in
/-- Modelled from the spec (claim C1's selection rule): a new candidate
replaces the best-so-far iff no candidate has been accepted yet, or its
`|β - 1|` is strictly smaller than the incumbent's and its dispersion is
strictly below the noise tolerance 2. -/
noncomputable def specStepC1 (g : ℕ → ℕ → ℝ × ℝ) (st : SpecSelState) (c : ℕ × ℕ) :
    SpecSelState :=
  if st.accepted = false
      ∨ (|(g c.1 c.2).1 - 1| < |st.beta_best - 1| ∧ (g c.1 c.2).2 < 2) then
    ⟨true, (g c.1 c.2).1, some c⟩
  else st

/-- The selector as claim C1 words it: fold of `specStepC1` over the same
candidate windows, returning the accepted triple. -/
noncomputable def choose_region_specC1 (msd time_array : ℕ → ℝ) (N : ℕ) :
    Option (ℕ × ℕ × ℝ) :=
  let st := (candidates N).foldl
    (specStepC1 fun s e => get_beta msd time_array s e) ⟨false, 0, none⟩
  st.result.map fun c => (c.1, c.2, st.beta_best)

open scoped Classical in
/-- The amended selection rule: a new candidate replaces the best-so-far
iff no candidate has been accepted yet, or the incumbent's exponent is
exactly `0` (the sentinel value cannot tell these two situations apart),
or its `|β - 1|` is strictly smaller than the incumbent's and its
dispersion is strictly below 2. -/
noncomputable def amendStepC1 (g : ℕ → ℕ → ℝ × ℝ) (st : SpecSelState) (c : ℕ × ℕ) :
    SpecSelState :=
  if st.accepted = false ∨ st.beta_best = 0
      ∨ (|(g c.1 c.2).1 - 1| < |st.beta_best - 1| ∧ (g c.1 c.2).2 < 2) then
    ⟨true, (g c.1 c.2).1, some c⟩
  else st

/-- The selector under the amended selection rule. -/
noncomputable def choose_region_amendedC1 (msd time_array : ℕ → ℝ) (N : ℕ) :
    Option (ℕ × ℕ × ℝ) :=
  let st := (candidates N).foldl
    (amendStepC1 fun s e => get_beta msd time_array s e) ⟨false, 0, none⟩
  st.result.map fun c => (c.1, c.2, st.beta_best)

/-- C5: `calc_cond_msd` processes every frame from `run_start` to the end
of the trajectory inclusive, accumulating for each frame the 3-vector
`qr(t) = Σ_anions com·anion_charge + Σ_cations com·cation_charge`; in
particular, with one cation and one anion at charges `+1` and `-1`, the
accumulated charge-flux vector at every frame is
`cation_position - anion_position`. -/
theorem C5_charge_accumulation (msd_fft : List Vec3 → List ℚ)
    (n_frames run_start : ℕ) (anion cation : ℕ → Vec3) :
    calc_cond_msd msd_fft n_frames [anion] [cation] run_start 1 (-1)
      = msd_fft (((List.range n_frames).drop run_start).map fun ts =>
          cation ts - anion ts)
    ∧ ((List.range n_frames).drop run_start).length = n_frames - run_start
    ∧ ∀ (anions cations : List (ℕ → Vec3)) (cc ac : ℚ),
        calc_cond_msd msd_fft n_frames anions cations run_start cc ac
          = msd_fft (((List.range n_frames).drop run_start).map fun ts =>
              (anions.map fun a => ac • a ts).sum
                + (cations.map fun c => cc • c ts).sum) := by
  refine ⟨?_, by simp, fun _ _ _ _ => rfl⟩
  unfold calc_cond_msd
  congr 1
  refine List.map_congr_left fun ts _ => ?_
  simp only [List.map_cons, List.map_nil, List.sum_cons, List.sum_nil, add_zero]
  rw [neg_one_smul, one_smul, neg_add_eq_sub]

/-- C3: for `units = "real"`, `conductivity_calculator` returns the
least-squares slope of the MSD against time over `[start, end)` divided
by `6·k_B·T·V` and multiplied by the conversion factor
`e2c² / ps2s / A2cm × 1000`, labelled mS/cm. -/
theorem C3_real_units_formula (time_array cond_array : ℕ → ℚ) (v : ℚ)
    (name : String) (start end_ : ℕ) (T : ℚ) :
    conductivity_calculator time_array cond_array v name start end_ T "real"
      = Except.ok (linregress_slope time_array cond_array start end_
          / (6 * (1.38064852e-23 : ℚ) * T * v)
          * ((1.60217662e-19 : ℚ) ^ 2 / 1e-12 / 1e-8 * 1000), "mS/cm") := by
  unfold conductivity_calculator
  rw [if_pos rfl]
  simp only [Except.ok.injEq, Prod.mk.injEq, and_true]
  ring

/-- C4: every units string other than "real" and "lj" makes
`conductivity_calculator` fail with the configuration error
`units selection not supported`, independently of all numeric inputs
(so no regression result and no report message is ever produced). -/
theorem C4_invalid_units (time_array cond_array : ℕ → ℚ) (v : ℚ)
    (name : String) (start end_ : ℕ) (T : ℚ) (units : String)
    (h1 : units ≠ "real") (h2 : units ≠ "lj") :
    conductivity_calculator time_array cond_array v name start end_ T units
      = Except.error "units selection not supported" := by
  simp [conductivity_calculator, h1, h2]

/-- Witness for C4 at the concrete unsupported units string "metal". -/
theorem C4_invalid_units_witness :
    conductivity_calculator (fun _ => 0) (fun _ => 0) 1 "test" 0 1 300 "metal"
      = Except.error "units selection not supported" :=
  C4_invalid_units (fun _ => 0) (fun _ => 0) 1 "test" 0 1 300 "metal"
    (by decide) (by decide)

/-- C6: for `units = "lj"` the returned conductivity is exactly
`slope / (6·T·V)` (all unit constants are 1), and the "real" result on
the same inputs differs from it exactly by the constant factor
`convert / k_B`. -/
theorem C6_lj_units (time_array cond_array : ℕ → ℚ) (v : ℚ)
    (name : String) (start end_ : ℕ) (T : ℚ) :
    conductivity_calculator time_array cond_array v name start end_ T "lj"
      = Except.ok (linregress_slope time_array cond_array start end_ / (6 * T * v),
          "q^2/(tau sigma epsilon)")
    ∧ conductivity_calculator time_array cond_array v name start end_ T "real"
      = Except.ok (linregress_slope time_array cond_array start end_ / (6 * T * v)
          * (((1.60217662e-19 : ℚ) ^ 2 / 1e-12 / 1e-8 * 1000)
              / (1.38064852e-23 : ℚ)), "mS/cm") := by
  constructor
  · unfold conductivity_calculator
    rw [if_neg (by decide : ¬("lj" = "real")), if_pos rfl]
    simp only [Except.ok.injEq, Prod.mk.injEq, and_true]
    ring
  · unfold conductivity_calculator
    rw [if_pos rfl]
    simp only [Except.ok.injEq, Prod.mk.injEq, and_true]
    ring

/-- The maximum of a constant nonempty list is that constant. -/
theorem listMax_replicate (m : ℕ) (a : ℝ) :
    listMax (List.replicate (m + 1) a) = a := by
  rw [List.replicate_succ]
  show (List.replicate m a).foldl max a = a
  induction m with
  | zero => rfl
  | succ k ih => rw [List.replicate_succ, List.foldl_cons, max_self]; exact ih

/-- The minimum of a constant nonempty list is that constant. -/
theorem listMin_replicate (m : ℕ) (a : ℝ) :
    listMin (List.replicate (m + 1) a) = a := by
  rw [List.replicate_succ]
  show (List.replicate m a).foldl min a = a
  induction m with
  | zero => rfl
  | succ k ih => rw [List.replicate_succ, List.foldl_cons, min_self]; exact ih

/-- The numerical gradient is exact on affine data: if `f = c + b * x`
pointwise and the sample coordinates `x` are strictly increasing below
`n`, every entry of the gradient equals `b`. -/
theorem gradAt_affine (x : ℕ → ℝ) (c b : ℝ) (n : ℕ) (hn : 2 ≤ n)
    (hx : ∀ j k, j < k → k < n → x j < x k) (i : ℕ) (hi : i < n) :
    gradAt (fun k => c + b * x k) x n i = b := by
  unfold gradAt
  by_cases h0 : i = 0
  · rw [if_pos h0]
    have hlt : x 0 < x 1 := hx 0 1 one_pos (by omega)
    have hne : x 1 - x 0 ≠ 0 := sub_ne_zero.mpr hlt.ne'
    rw [div_eq_iff hne]
    ring
  · rw [if_neg h0]
    by_cases h1 : i = n - 1
    · rw [if_pos h1]
      have hlt : x (n - 2) < x (n - 1) := hx (n - 2) (n - 1) (by omega) (by omega)
      have hne : x (n - 1) - x (n - 2) ≠ 0 := sub_ne_zero.mpr hlt.ne'
      rw [div_eq_iff hne]
      ring
    · rw [if_neg h1]
      have hs_pos : 0 < x i - x (i - 1) :=
        sub_pos.mpr (hx (i - 1) i (by omega) hi)
      have hd_pos : 0 < x (i + 1) - x i :=
        sub_pos.mpr (hx i (i + 1) (by omega) (by omega))
      have hden : (x i - x (i - 1)) * (x (i + 1) - x i)
          * ((x (i + 1) - x i) + (x i - x (i - 1))) ≠ 0 :=
        (mul_pos (mul_pos hs_pos hd_pos) (add_pos hd_pos hs_pos)).ne'
      rw [div_eq_iff hden]
      ring

/-- On affine data over strictly increasing coordinates, the whole
gradient array is constantly `b`. -/
theorem npGradient_affine (x : ℕ → ℝ) (c b : ℝ) (n : ℕ) (hn : 2 ≤ n)
    (hx : ∀ j k, j < k → k < n → x j < x k) :
    npGradient (fun k => c + b * x k) x n = List.replicate n b := by
  unfold npGradient
  refine List.eq_replicate.mpr ⟨by simp, ?_⟩
  intro y hy
  simp only [List.mem_map, List.mem_range] at hy
  obtain ⟨i, hi, rfl⟩ := hy
  exact gradAt_affine x c b n hn hx i hi

/-- C7: on an exactly linear MSD series `MSD(t) = D·t` with `D > 0` over
a strictly increasing positive time array, `get_beta` returns mean
exponent `beta = 1` and dispersion `0` on every window with
`start ≥ 1` and `end - start ≥ 3`: every local log-log slope is
exactly 1. -/
theorem C7_linear_msd_beta_one (D : ℝ) (hD : 0 < D) (time_array : ℕ → ℝ)
    (hpos : ∀ n, 0 < time_array n)
    (hmono : ∀ m n, m < n → time_array m < time_array n)
    (start end_ : ℕ) (hstart : 1 ≤ start) (hlen : 3 ≤ end_ - start) :
    get_beta (fun k => D * time_array k) time_array start end_ = (1, 0) := by
  unfold get_beta
  have heq : (fun k => Real.log ((fun j => D * time_array j) (start + k)))
      = fun k => Real.log D + 1 * Real.log (time_array (start + k)) := by
    funext k
    simp only []
    rw [Real.log_mul hD.ne' (hpos (start + k)).ne', one_mul]
  have hgrad : npGradient (fun k => Real.log ((fun j => D * time_array j) (start + k)))
      (fun k => Real.log (time_array (start + k))) (end_ - start)
      = List.replicate (end_ - start) 1 := by
    rw [heq]
    exact npGradient_affine _ (Real.log D) 1 _ (by omega)
      (fun j k hjk _ =>
        Real.log_lt_log (hpos (start + j)) (hmono _ _ (by omega)))
  simp only [hgrad]
  obtain ⟨m, hm⟩ : ∃ m, end_ - start = m + 1 := ⟨end_ - start - 1, by omega⟩
  rw [hm, listMax_replicate, listMin_replicate, List.sum_replicate]
  simp only [nsmul_eq_mul, mul_one, Prod.mk.injEq]
  constructor
  · exact div_self (Nat.cast_ne_zero.mpr (Nat.succ_ne_zero m))
  · ring

/-- Witness for C7 at `D = 2`, `time n = n + 1`, window `[1, 5)`. -/
theorem C7_linear_msd_beta_one_witness :
    get_beta (fun k => 2 * ((k : ℝ) + 1)) (fun n => (n : ℝ) + 1) 1 5 = (1, 0) :=
  C7_linear_msd_beta_one 2 (by norm_num) (fun n => (n : ℝ) + 1)
    (fun n => by positivity)
    (fun m n h => by
      show (m : ℝ) + 1 < (n : ℝ) + 1
      have hc : (m : ℝ) < n := Nat.cast_lt.mpr h
      linarith)
    1 5 le_rfl (by norm_num)

/-- Accepting a step never unassigns the window. -/
theorem selectStep_some (g : ℕ → ℕ → ℝ × ℝ) (st : SelState) (c : ℕ × ℕ)
    (h : st.result.isSome = true) : ((selectStep g st c).result).isSome = true := by
  unfold selectStep
  split
  · rfl
  · exact h

/-- Folding the selection step preserves an assigned window. -/
theorem selectFold_some (g : ℕ → ℕ → ℝ × ℝ) :
    ∀ (cs : List (ℕ × ℕ)) (st : SelState), st.result.isSome = true →
      (((cs.foldl (selectStep g) st).result)).isSome = true := by
  intro cs
  induction cs with
  | nil => intro st h; exact h
  | cons c cs ih =>
      intro st h
      rw [List.foldl_cons]
      exact ih _ (selectStep_some g st c h)

/-- From the sentinel state `beta_best = 0`, every candidate is accepted. -/
theorem selectStep_init (g : ℕ → ℕ → ℝ × ℝ) (c : ℕ × ℕ) (st : SelState)
    (h : st.beta_best = 0) : selectStep g st c = ⟨(g c.1 c.2).1, some c⟩ := by
  unfold selectStep
  rw [if_pos (Or.inr h)]

/-- After folding over a nonempty candidate list, a window is assigned. -/
theorem selectLoop_some (g : ℕ → ℕ → ℝ × ℝ) (c : ℕ × ℕ) (cs : List (ℕ × ℕ)) :
    ((selectLoop g (c :: cs)).result).isSome = true := by
  unfold selectLoop
  rw [List.foldl_cons, selectStep_init g c _ rfl]
  exact selectFold_some g cs _ rfl

/-- The selector always tries exactly 10 candidate windows. -/
theorem candidates_length (N : ℕ) : (candidates N).length = 10 := by
  simp [candidates]

/-- The selector always reaches the return statement with
`start_final`, `end_final` assigned: the first candidate is accepted
because `beta_best` is initialised to the sentinel `0`. -/
theorem region_always_assigned (msd time_array : ℕ → ℝ) (N : ℕ) :
    ((choose_msd_fitting_region msd time_array N).region).isSome = true := by
  obtain ⟨c, cs, hcs⟩ : ∃ c cs, candidates N = c :: cs := by
    cases h : candidates N with
    | nil =>
        have h10 := candidates_length N
        rw [h] at h10
        simp at h10
    | cons c cs => exact ⟨c, cs, rfl⟩
  unfold choose_msd_fitting_region
  rw [hcs]
  simp only [Option.isSome_map']
  exact selectLoop_some _ c cs

/-- C10: the first candidate window is always accepted (the sentinel
condition `beta_best == 0` holds on the first iteration regardless of
that candidate's `beta` or dispersion), so the selector always returns a
defined window: the exhaustion case where all 10 candidates are rejected
and no output is assigned is unreachable. -/
theorem C10_first_candidate_always_accepted (msd time_array : ℕ → ℝ) (N : ℕ) :
    ((choose_msd_fitting_region msd time_array N).region).isSome = true :=
  region_always_assigned msd time_array N

/-- C8: the low-linearity warning is a quality signal only: it is
emitted exactly when the best exponent is below 0.9, the returned
triple is identical to the result of the same search with the warning
threshold removed, and a best-found window is still returned. -/
theorem C8_warning_does_not_change_result (msd time_array : ℕ → ℝ) (N : ℕ) :
    (choose_msd_fitting_region msd time_array N).region
        = choose_region_nowarn msd time_array N
    ∧ ((choose_msd_fitting_region msd time_array N).warned ↔
        (selectLoop (fun s e => get_beta msd time_array s e)
          (candidates N)).beta_best < 0.9)
    ∧ ((choose_msd_fitting_region msd time_array N).region).isSome = true :=
  ⟨rfl, Iff.rfl, region_always_assigned msd time_array N⟩

/-- Any window assigned by the fold came from the candidate list (or was
already assigned before the fold started). -/
theorem selectFold_mem (g : ℕ → ℕ → ℝ × ℝ) :
    ∀ (cs : List (ℕ × ℕ)) (st : SelState) (p : ℕ × ℕ),
      (cs.foldl (selectStep g) st).result = some p →
      p ∈ cs ∨ st.result = some p := by
  intro cs
  induction cs with
  | nil => intro st p h; exact Or.inr h
  | cons c cs ih =>
      intro st p h
      rw [List.foldl_cons] at h
      rcases ih _ p h with hmem | hstep
      · exact Or.inl (List.mem_cons_of_mem _ hmem)
      · unfold selectStep at hstep
        split at hstep
        · simp only [Option.some.injEq] at hstep
          exact Or.inl (hstep ▸ List.mem_cons_self c cs)
        · exact Or.inr hstep

/-- For arrays of length `N ≥ 20`, every log-spaced point lies between
2 and `N / 10`. -/
theorem logspace_pt_bounds (N : ℕ) (hN : 20 ≤ N) (k : ℕ) (hk : k < 10) :
    2 ≤ logspace_pt (Real.logb 10 2) (Real.logb 10 ((N : ℝ) / 10)) 10 k
      ∧ logspace_pt (Real.logb 10 2) (Real.logb 10 ((N : ℝ) / 10)) 10 k
          ≤ (N : ℝ) / 10 := by
  have hNR : (2 : ℝ) ≤ (N : ℝ) / 10 := by
    have h20 : (20 : ℝ) ≤ (N : ℝ) := by exact_mod_cast hN
    linarith
  have hab : Real.logb 10 2 ≤ Real.logb 10 ((N : ℝ) / 10) :=
    Real.logb_le_logb_of_le (by norm_num) (by norm_num) hNR
  have hk9 : (k : ℝ) ≤ 9 := by exact_mod_cast Nat.le_of_lt_succ hk
  have hk0 : (0 : ℝ) ≤ (k : ℝ) := Nat.cast_nonneg k
  have hexp_lo : Real.logb 10 2
      ≤ Real.logb 10 2 + (k : ℝ)
        * ((Real.logb 10 ((N : ℝ) / 10) - Real.logb 10 2) / ((10 : ℝ) - 1)) := by
    have : (0 : ℝ) ≤ (k : ℝ)
        * ((Real.logb 10 ((N : ℝ) / 10) - Real.logb 10 2) / ((10 : ℝ) - 1)) := by
      apply mul_nonneg hk0
      apply div_nonneg (by linarith) (by norm_num)
    linarith
  have hexp_hi : Real.logb 10 2 + (k : ℝ)
      * ((Real.logb 10 ((N : ℝ) / 10) - Real.logb 10 2) / ((10 : ℝ) - 1))
      ≤ Real.logb 10 ((N : ℝ) / 10) := by
    set d := Real.logb 10 ((N : ℝ) / 10) - Real.logb 10 2 with hd
    have hd0 : 0 ≤ d := by rw [hd]; linarith
    have h9 : (k : ℝ) * (d / ((10 : ℝ) - 1)) ≤ d := by
      rw [show ((10 : ℝ) - 1) = 9 by norm_num]
      rw [div_eq_mul_inv, ← mul_assoc]
      calc (k : ℝ) * d * (9 : ℝ)⁻¹ ≤ 9 * d * (9 : ℝ)⁻¹ := by
            apply mul_le_mul_of_nonneg_right (mul_le_mul_of_nonneg_right hk9 hd0)
            norm_num
        _ = d := by field_simp
    linarith
  constructor
  · unfold logspace_pt
    push_cast
    calc (2 : ℝ) = (10 : ℝ) ^ Real.logb 10 2 :=
          (Real.rpow_logb (by norm_num) (by norm_num) (by norm_num)).symm
      _ ≤ _ := Real.rpow_le_rpow_of_exponent_le (by norm_num) hexp_lo
  · unfold logspace_pt
    push_cast
    calc (10 : ℝ) ^ (Real.logb 10 2 + (k : ℝ)
          * ((Real.logb 10 ((N : ℝ) / 10) - Real.logb 10 2) / ((10 : ℝ) - 1)))
        ≤ (10 : ℝ) ^ Real.logb 10 ((N : ℝ) / 10) :=
          Real.rpow_le_rpow_of_exponent_le (by norm_num) hexp_hi
      _ = (N : ℝ) / 10 :=
          Real.rpow_logb (by norm_num) (by norm_num) (by linarith)

/-- For `N ≥ 20`, every candidate window is a valid nonempty window into
an array of length `N`. -/
theorem candidates_valid (N : ℕ) (hN : 20 ≤ N) (p : ℕ × ℕ)
    (hp : p ∈ candidates N) : p.1 < p.2 ∧ p.2 ≤ N := by
  unfold candidates at hp
  simp only [List.mem_map, List.mem_range] at hp
  obtain ⟨k, hk, rfl⟩ := hp
  obtain ⟨h2, hub⟩ := logspace_pt_bounds N hN k hk
  set i := logspace_pt (Real.logb 10 2) (Real.logb 10 ((N : ℝ) / 10)) 10 k with hi
  constructor
  · have hi0 : (0 : ℝ) ≤ i := by linarith
    have h1 : (⌊i⌋₊ : ℝ) ≤ i := Nat.floor_le hi0
    have h3 : ((⌊i⌋₊ + 1 : ℕ) : ℝ) ≤ i * 10 := by push_cast; linarith
    have h4 := Nat.le_floor h3
    simp only []
    omega
  · simp only []
    have h5 : i * 10 ≤ ((N : ℕ) : ℝ) := by
      have := hub
      push_cast
      linarith
    calc ⌊i * 10⌋₊ ≤ ⌊((N : ℕ) : ℝ)⌋₊ := Nat.floor_le_floor h5
      _ = N := Nat.floor_natCast N

/-- C9: for arrays of length `N ≥ 20`, the fitting region returned by
the selector is a valid nonempty contiguous window:
`0 ≤ start < end ≤ N`. -/
theorem C9_region_is_valid_window (msd time_array : ℕ → ℝ) (N : ℕ)
    (hN : 20 ≤ N) (s e : ℕ) (b : ℝ)
    (h : (choose_msd_fitting_region msd time_array N).region = some (s, e, b)) :
    0 ≤ s ∧ s < e ∧ e ≤ N := by
  refine ⟨Nat.zero_le s, ?_⟩
  unfold choose_msd_fitting_region at h
  obtain ⟨p, hp, hpe⟩ := Option.map_eq_some'.mp h
  simp only [Prod.mk.injEq] at hpe
  obtain ⟨hs, he, -⟩ := hpe
  unfold selectLoop at hp
  rcases selectFold_mem _ (candidates N) _ p hp with hmem | hinit
  · have := candidates_valid N hN p hmem
    omega
  · simp at hinit

/-- On a constant MSD series equal to 1, every local log-log slope is 0,
so `get_beta` returns `(0, 0)` on every window. -/
theorem get_beta_const_one (time_array : ℕ → ℝ) (s e : ℕ) :
    get_beta (fun _ => 1) time_array s e = (0, 0) := by
  simp only [get_beta]
  have h : npGradient (fun k => Real.log ((fun _ => (1 : ℝ)) (s + k)))
      (fun k => Real.log (time_array (s + k))) (e - s)
      = List.replicate (e - s) 0 := by
    unfold npGradient
    refine List.eq_replicate.mpr ⟨by simp, ?_⟩
    intro y hy
    simp only [List.mem_map, List.mem_range] at hy
    obtain ⟨j, hj, rfl⟩ := hy
    unfold gradAt
    simp [Real.log_one]
  rw [h]
  rcases Nat.eq_zero_or_pos (e - s) with h0 | hpos
  · rw [h0]
    norm_num [listMax, listMin]
  · obtain ⟨m, hm⟩ : ∃ m, e - s = m + 1 := ⟨e - s - 1, by omega⟩
    rw [hm, listMax_replicate, listMin_replicate, List.sum_replicate]
    simp

/-- The last element of a cons in terms of `Option.or`. -/
theorem getLast_cons_or (c : ℕ × ℕ) (cs : List (ℕ × ℕ)) :
    (c :: cs).getLast? = cs.getLast?.or (some c) := by
  cases cs with
  | nil => rfl
  | cons d ds =>
      rw [List.getLast?_cons_cons]
      have hds : (d :: ds).getLast?.isSome = true := by
        rw [List.getLast?_isSome]
        simp
      obtain ⟨y, hy⟩ := Option.isSome_iff_exists.mp hds
      rw [hy, Option.or_some]

/-- When the exponent estimator returns `(0, 0)` on every window, every
loop iteration accepts (the sentinel `beta_best == 0` always holds), so
the fold ends with the last candidate. -/
theorem selectFold_all_zero (g : ℕ → ℕ → ℝ × ℝ) (hg : ∀ s e, g s e = (0, 0)) :
    ∀ (cs : List (ℕ × ℕ)) (st : SelState), st.beta_best = 0 →
      cs.foldl (selectStep g) st = ⟨0, cs.getLast?.or st.result⟩ := by
  intro cs
  induction cs with
  | nil =>
      intro st h
      cases st with
      | mk bb res => simp only at h; rw [h]; rfl
  | cons c cs ih =>
      intro st h
      rw [List.foldl_cons, selectStep_init g c st h]
      have hz : ((g c.1 c.2).1) = 0 := by rw [hg]
      rw [hz, ih ⟨0, some c⟩ rfl, getLast_cons_or]
      rw [Option.or_assoc, Option.or_some]

/-- The first of the 10 log-spaced points is exactly 2
(`10 ** log10(2) = 2`), for every array length. -/
theorem logspace_pt_first (b : ℝ) :
    logspace_pt (Real.logb 10 2) b 10 0 = 2 := by
  unfold logspace_pt
  norm_num

/-- The last of the 10 log-spaced points is exactly `10 ** b`. -/
theorem logspace_pt_last (a b : ℝ) : logspace_pt a b 10 9 = (10 : ℝ) ^ b := by
  unfold logspace_pt
  have h : a + ((9 : ℕ) : ℝ) * ((b - a) / (((10 : ℕ) : ℝ) - 1)) = b := by
    push_cast
    ring
  rw [h]

/-- The floor of the real literal 2 is 2, and of 2·10 is 20. -/
theorem floor_two_twenty : ⌊(2 : ℝ)⌋₊ = 2 ∧ ⌊(2 : ℝ) * 10⌋₊ = 20 := by
  constructor
  · rw [show (2 : ℝ) = ((2 : ℕ) : ℝ) by norm_num]
    exact Nat.floor_natCast 2
  · rw [show (2 : ℝ) * 10 = ((20 : ℕ) : ℝ) by norm_num]
    exact Nat.floor_natCast 20

/-- The first candidate window is `(2, 20)` for every array length. -/
theorem candidates_head (N : ℕ) : ∃ tl, candidates N = (2, 20) :: tl := by
  have h : candidates N
      = (2, 20) :: ((List.range 9).map Nat.succ).map (fun k =>
          let i := logspace_pt (Real.logb 10 2) (Real.logb 10 ((N : ℝ) / 10)) 10 k
          (⌊i⌋₊, ⌊i * 10⌋₊)) := by
    unfold candidates
    rw [show List.range 10 = 0 :: (List.range 9).map Nat.succ from
      List.range_succ_eq_map 9, List.map_cons]
    congr 1
    simp only [logspace_pt_first]
    rw [Prod.mk.injEq]
    exact floor_two_twenty
  exact ⟨_, h⟩

/-- The last candidate window for `N = 200` is `(20, 200)`. -/
theorem candidates_200_last : (candidates 200).getLast? = some (20, 200) := by
  unfold candidates
  rw [show List.range 10 = List.range 9 ++ [9] from List.range_succ 9,
    List.map_append, List.map_cons, List.map_nil, List.getLast?_concat]
  have hb : logspace_pt (Real.logb 10 2) (Real.logb 10 (((200 : ℕ) : ℝ) / 10)) 10 9
      = (20 : ℝ) := by
    rw [logspace_pt_last, show (((200 : ℕ) : ℝ) / 10) = (20 : ℝ) by norm_num]
    exact Real.rpow_logb (by norm_num) (by norm_num) (by norm_num)
  simp only [hb]
  rw [Option.some.injEq, Prod.mk.injEq]
  constructor
  · rw [show (20 : ℝ) = ((20 : ℕ) : ℝ) by norm_num]
    exact Nat.floor_natCast 20
  · rw [show (20 : ℝ) * 10 = ((200 : ℕ) : ℝ) by norm_num]
    exact Nat.floor_natCast 200

/-- On the constant MSD series 1 with `N = 200`, the code's selector
returns the LAST candidate window `(20, 200)` with `beta_best = 0`:
because every candidate has `beta = 0`, the sentinel `beta_best == 0`
re-fires on every iteration and each candidate overwrites the previous
one. -/
theorem run_const_200 :
    (choose_msd_fitting_region (fun _ => 1) (fun n => (n : ℝ) + 1) 200).region
      = some (20, 200, 0) := by
  have hg : ∀ s e, get_beta (fun _ => (1 : ℝ)) (fun n => (n : ℝ) + 1) s e = (0, 0) :=
    fun s e => get_beta_const_one _ s e
  unfold choose_msd_fitting_region selectLoop
  rw [selectFold_all_zero _ hg (candidates 200) ⟨0, none⟩ rfl]
  rw [candidates_200_last]
  rfl

/-- Under the specification's selection rule, once a candidate with
`beta = 0` has been accepted, later candidates with no better
`|beta - 1|` are all rejected. -/
theorem specFold_rejects (g : ℕ → ℕ → ℝ × ℝ) (hg : ∀ s e, g s e = (0, 0)) :
    ∀ (cs : List (ℕ × ℕ)) (st : SpecSelState), st.accepted = true →
      st.beta_best = 0 → cs.foldl (specStepC1 g) st = st := by
  intro cs
  induction cs with
  | nil => intro st _ _; rfl
  | cons c cs ih =>
      intro st ha hb
      rw [List.foldl_cons]
      have hstep : specStepC1 g st c = st := by
        unfold specStepC1
        rw [if_neg]
        rintro (hfalse | ⟨hlt, -⟩)
        · rw [ha] at hfalse; cases hfalse
        · rw [hg] at hlt
          rw [hb] at hlt
          simp at hlt
      rw [hstep]
      exact ih st ha hb

/-- On the constant MSD series 1 with `N = 200`, the selector as the
claim words it returns the FIRST candidate window `(2, 20)`: ties in
`|beta - 1|` never replace the incumbent. -/
theorem spec_run_const_200 :
    choose_region_specC1 (fun _ => 1) (fun n => (n : ℝ) + 1) 200
      = some (2, 20, 0) := by
  have hg : ∀ s e, get_beta (fun _ => (1 : ℝ)) (fun n => (n : ℝ) + 1) s e = (0, 0) :=
    fun s e => get_beta_const_one _ s e
  obtain ⟨tl, htl⟩ := candidates_head 200
  unfold choose_region_specC1
  rw [htl, List.foldl_cons]
  have hstep : specStepC1 (fun s e => get_beta (fun _ => (1 : ℝ)) (fun n => (n : ℝ) + 1) s e)
      (⟨false, 0, none⟩ : SpecSelState) (2, 20) = ⟨true, 0, some (2, 20)⟩ := by
    unfold specStepC1
    rw [if_pos (Or.inl rfl)]
    have : (get_beta (fun _ => (1 : ℝ)) (fun n => (n : ℝ) + 1) 2 20).1 = 0 := by
      rw [hg]
    simp only [this]
  rw [hstep, specFold_rejects _ hg tl ⟨true, 0, some (2, 20)⟩ rfl rfl]
  rfl

/-- C1 counterexample: on the concrete input `msd ≡ 1`,
`time n = n + 1`, `N = 200`, the code returns the last candidate window
`(20, 200)` while the claimed replacement rule returns the first
`(2, 20)`: a candidate whose `|beta - 1|` equals the incumbent's DOES
replace it whenever the incumbent's `beta` is exactly the sentinel
value 0, so the claimed iff is false on the code. -/
theorem C1_counterexample_sentinel_zero :
    (choose_msd_fitting_region (fun _ => 1) (fun n => (n : ℝ) + 1) 200).region
        = some (20, 200, 0)
    ∧ choose_region_specC1 (fun _ => 1) (fun n => (n : ℝ) + 1) 200
        = some (2, 20, 0)
    ∧ (choose_msd_fitting_region (fun _ => 1) (fun n => (n : ℝ) + 1) 200).region
        ≠ choose_region_specC1 (fun _ => 1) (fun n => (n : ℝ) + 1) 200 := by
  refine ⟨run_const_200, spec_run_const_200, ?_⟩
  rw [run_const_200, spec_run_const_200]
  simp

/-- One step of the code's rule and of the amended rule agree, given the
invariant that an unaccepted amended state has the sentinel exponent. -/
theorem step_rel_amended (g : ℕ → ℕ → ℝ × ℝ) (st : SelState)
    (st' : SpecSelState) (c : ℕ × ℕ)
    (h1 : st.beta_best = st'.beta_best) (h2 : st.result = st'.result)
    (h3 : st'.accepted = false → st.beta_best = 0) :
    (selectStep g st c).beta_best = (amendStepC1 g st' c).beta_best
    ∧ (selectStep g st c).result = (amendStepC1 g st' c).result
    ∧ ((amendStepC1 g st' c).accepted = false → (selectStep g st c).beta_best = 0) := by
  unfold selectStep amendStepC1
  by_cases hacc : st'.accepted = false
  · rw [if_pos (Or.inr (h3 hacc)), if_pos (Or.inl hacc)]
    exact ⟨rfl, rfl, fun h => Bool.noConfusion h⟩
  · have hcond : ((|(g c.1 c.2).1 - 1| < |st.beta_best - 1| ∧ (g c.1 c.2).2 < 2)
        ∨ st.beta_best = 0)
        ↔ (st'.accepted = false ∨ st'.beta_best = 0
            ∨ (|(g c.1 c.2).1 - 1| < |st'.beta_best - 1| ∧ (g c.1 c.2).2 < 2)) := by
      rw [h1]
      constructor
      · rintro (h | h)
        · exact Or.inr (Or.inr h)
        · exact Or.inr (Or.inl h)
      · rintro (h | h | h)
        · exact absurd h hacc
        · exact Or.inr h
        · exact Or.inl h
    by_cases hc : (|(g c.1 c.2).1 - 1| < |st.beta_best - 1| ∧ (g c.1 c.2).2 < 2)
        ∨ st.beta_best = 0
    · rw [if_pos hc, if_pos (hcond.mp hc)]
      exact ⟨rfl, rfl, fun h => Bool.noConfusion h⟩
    · rw [if_neg hc, if_neg (fun h => hc (hcond.mpr h))]
      exact ⟨h1, h2, fun h => absurd h hacc⟩

/-- The full folds of the code's rule and of the amended rule agree. -/
theorem fold_rel_amended (g : ℕ → ℕ → ℝ × ℝ) :
    ∀ (cs : List (ℕ × ℕ)) (st : SelState) (st' : SpecSelState),
      st.beta_best = st'.beta_best → st.result = st'.result →
      (st'.accepted = false → st.beta_best = 0) →
      (cs.foldl (selectStep g) st).beta_best
          = (cs.foldl (amendStepC1 g) st').beta_best
      ∧ (cs.foldl (selectStep g) st).result
          = (cs.foldl (amendStepC1 g) st').result := by
  intro cs
  induction cs with
  | nil => intro st st' h1 h2 _; exact ⟨h1, h2⟩
  | cons c cs ih =>
      intro st st' h1 h2 h3
      rw [List.foldl_cons, List.foldl_cons]
      obtain ⟨g1, g2, g3⟩ := step_rel_amended g st st' c h1 h2 h3
      exact ih _ _ g1 g2 g3

/-- C1 amended: a new candidate replaces the best-so-far if and only if
the running `beta_best` is exactly 0 — which holds when no candidate has
been accepted yet, but also when the accepted incumbent's `beta` is
exactly 0 — or its `|beta - 1|` is strictly smaller than the incumbent's
and its dispersion is strictly below 2.  The code's selector coincides
with the selector using this amended rule on all inputs. -/
theorem C1_amended_selection_rule (msd time_array : ℕ → ℝ) (N : ℕ) :
    (choose_msd_fitting_region msd time_array N).region
      = choose_region_amendedC1 msd time_array N := by
  simp only [choose_msd_fitting_region, choose_region_amendedC1, selectLoop]
  obtain ⟨hb, hr⟩ := fold_rel_amended (fun s e => get_beta msd time_array s e)
    (candidates N) ⟨0, none⟩ ⟨false, 0, none⟩ rfl rfl (fun _ => rfl)
  rw [hb, hr]

/-- Witness for C9 at the concrete run on `msd ≡ 1`, `time n = n + 1`,
`N = 200`, whose returned region is `(20, 200)`. -/
theorem C9_region_is_valid_window_witness : 0 ≤ 20 ∧ 20 < 200 ∧ (200 : ℕ) ≤ 200 :=
  C9_region_is_valid_window (fun _ => 1) (fun n => (n : ℝ) + 1) 200
    (by norm_num) 20 200 0 run_const_200

/-- Rational bounds on the ninth root of 10: `1.25 < 10^(1/9) < 1.3`. -/
theorem ten_rpow_ninth_bounds :
    (1.25 : ℝ) < (10 : ℝ) ^ ((1 : ℝ) / 9) ∧ (10 : ℝ) ^ ((1 : ℝ) / 9) < 1.3 := by
  have hpow : ((10 : ℝ) ^ ((1 : ℝ) / 9)) ^ (9 : ℕ) = 10 := by
    rw [← Real.rpow_natCast ((10 : ℝ) ^ ((1 : ℝ) / 9)) 9,
      ← Real.rpow_mul (by norm_num : (0 : ℝ) ≤ 10)]
    norm_num
  constructor
  · apply lt_of_pow_lt_pow_left 9
      (le_of_lt (Real.rpow_pos_of_pos (by norm_num) _))
    rw [hpow]
    norm_num
  · apply lt_of_pow_lt_pow_left 9 (by norm_num : (0 : ℝ) ≤ 1.3)
    rw [hpow]
    norm_num

/-- The second log-spaced point for `N = 200` is `2 · 10^(1/9)`. -/
theorem logspace_200_second :
    logspace_pt (Real.logb 10 2) (Real.logb 10 (((200 : ℕ) : ℝ) / 10)) 10 1
      = 2 * (10 : ℝ) ^ ((1 : ℝ) / 9) := by
  unfold logspace_pt
  rw [show (((200 : ℕ) : ℝ) / 10) = (20 : ℝ) by norm_num]
  have hdiff : Real.logb 10 (20 : ℝ) - Real.logb 10 2 = 1 := by
    rw [← Real.logb_div (by norm_num) (by norm_num)]
    norm_num
  rw [hdiff]
  rw [show Real.logb 10 2 + ((1 : ℕ) : ℝ) * ((1 : ℝ) / (((10 : ℕ) : ℝ) - 1))
      = Real.logb 10 2 + (1 : ℝ) / 9 by push_cast; ring]
  rw [Real.rpow_add (by norm_num : (0 : ℝ) < 10),
    Real.rpow_logb (by norm_num) (by norm_num) (by norm_num)]

/-- The second candidate window for `N = 200` is `(2, 25)`:
`int(2·10^(1/9)) = 2` but `int(2·10^(1/9)·10) = 25`. -/
theorem candidates_200_second : (candidates 200)[1]? = some (2, 25) := by
  unfold candidates
  rw [List.getElem?_map, List.getElem?_range (by norm_num : (1 : ℕ) < 10)]
  simp only [Option.map_some', logspace_200_second]
  obtain ⟨hlb, hub⟩ := ten_rpow_ninth_bounds
  rw [Option.some.injEq, Prod.mk.injEq]
  constructor
  · rw [Nat.floor_eq_iff (by positivity)]
    constructor
    · push_cast
      linarith
    · push_cast
      linarith
  · rw [Nat.floor_eq_iff (by positivity)]
    constructor
    · push_cast
      linarith
    · push_cast
      linarith

/-- C2 counterexample: for `N = 200`, the second candidate window is
`(2, 25)` (the code computes `end = int(i * 10)`, not `start * 10`), so
the claimed relation `end = start × 10` fails: `25 ≠ 2 × 10`. -/
theorem C2_counterexample_end_not_start_times_ten :
    (candidates 200)[1]? = some (2, 25) ∧ (25 : ℕ) ≠ 2 * 10 :=
  ⟨candidates_200_second, by decide⟩

/-- C2 amended: the 10 candidate windows are formed from the 10 points
log-spaced between 2 and `N/10`, with `start = int(i)` and
`end = int(i × 10)`; the end index need not equal `start × 10`, but it
always lies in the decade `[start × 10, start × 10 + 10)`. -/
theorem C2_amended_window_shape (N : ℕ) :
    (candidates N).length = 10
    ∧ ∀ p ∈ candidates N, p.1 * 10 ≤ p.2 ∧ p.2 < p.1 * 10 + 10 := by
  refine ⟨candidates_length N, ?_⟩
  intro p hp
  unfold candidates at hp
  simp only [List.mem_map, List.mem_range] at hp
  obtain ⟨k, hk, rfl⟩ := hp
  simp only []
  set i := logspace_pt (Real.logb 10 2) (Real.logb 10 ((N : ℝ) / 10)) 10 k with hidef
  have hi : 0 < i := Real.rpow_pos_of_pos (by norm_num) _
  constructor
  · have hle : ((⌊i⌋₊ * 10 : ℕ) : ℝ) ≤ i * 10 := by
      push_cast
      have hfl := Nat.floor_le hi.le
      linarith
    exact Nat.le_floor hle
  · have hlt : i * 10 < ((⌊i⌋₊ * 10 + 10 : ℕ) : ℝ) := by
      push_cast
      have hfl := Nat.lt_floor_add_one i
      linarith
    exact (Nat.floor_lt (by positivity)).mpr hlt

/-- Witness for C2's amended claim at `N = 20` and the first candidate
window `(2, 20)`. -/
theorem C2_amended_window_shape_witness :
    (2 : ℕ) * 10 ≤ 20 ∧ (20 : ℕ) < 2 * 10 + 10 := by
  obtain ⟨tl, htl⟩ := candidates_head 20
  have hmem : ((2 : ℕ), (20 : ℕ)) ∈ candidates 20 := by
    rw [htl]
    exact List.mem_cons_self _ _
  exact (C2_amended_window_shape 20).2 (2, 20) hmem
